import Mathlib

/-!
Shallow embedding of `emoji/core.py` (package `emoji`): the bidirectional
shortcode/glyph substitution engine, the locator/counter, and the
twemoji code-point encoder.

Python `str` values are modelled as `List Char` for the text functions.
`to_code_point` is the one function whose behaviour on lone surrogates
matters, and Lean's `Char` excludes surrogate scalar values, so that
function is modelled over `List Nat` (one `Nat` per Python code point).

The emoji data tables (module `emoji.unicode_codes`) are external static
data consumed by the engine; they are modelled as an explicit
`EmojiTable` parameter holding the four dicts as association lists
(first binding wins, like a Python dict with unique keys).
-/

namespace EmojiCore

abbrev Str := List Char

/-- The four mappings of `emoji.unicode_codes` consumed by `core.py`. -/
structure EmojiTable where
  EMOJI_UNICODE : List (Str × Str)
  EMOJI_ALIAS_UNICODE : List (Str × Str)
  UNICODE_EMOJI : List (Str × Str)
  UNICODE_EMOJI_ALIAS : List (Str × Str)

/-- `d[k]` as an `Option`: first binding of `k` in the association list. -/
def dictFind (d : List (Str × Str)) (k : Str) : Option Str :=
  match d with
  | [] => none
  | (k2, v) :: rest => if k2 = k then some v else dictFind rest k

/-- Python `d.get(k, dflt)`. -/
def dictGet (d : List (Str × Str)) (k dflt : Str) : Str :=
  (dictFind d k).getD dflt

/-- Python `k in d`. -/
def dictMem (d : List (Str × Str)) (k : Str) : Bool :=
  (dictFind d k).isSome

/-- Python `str.replace(old, new)` worker for nonempty `old`:
replace non-overlapping occurrences left to right.  Fuel-structural
(each step consumes at least one character, so `fuel = s.length` never
runs out). -/
def pyReplaceAux (old new : Str) : Nat → Str → Str
  | 0, s => s
  | _ + 1, [] => []
  | fuel + 1, c :: s2 =>
    if (!old.isEmpty) && old.isPrefixOf (c :: s2) then
      new ++ pyReplaceAux old new fuel (List.drop old.length (c :: s2))
    else
      c :: pyReplaceAux old new fuel s2

/-- Python `s.replace(old, new)`, including the `old = ""` behaviour
(`new` inserted before every character and at the end). -/
def pyReplace (s old new : Str) : Str :=
  if old.isEmpty then new ++ (s.map (fun c => c :: new)).flatten
  else pyReplaceAux old new s.length s

/-- The character class of the `emojize` scanning pattern
`(%s[a-zA-Z0-9\+\-_&.√¥‚Äô√Ö√©√£√≠√ß()!#*]+%s)`, transcribed
code point by code point from the source line. -/
def isEmojiNameChar (c : Char) : Bool :=
  ('a' ≤ c && c ≤ 'z') || ('A' ≤ c && c ≤ 'Z') || ('0' ≤ c && c ≤ '9') ||
  c == '+' || c == '-' || c == '_' || c == '&' || c == '.' ||
  c == '(' || c == ')' || c == '!' || c == '#' || c == '*' ||
  c == Char.ofNat 0x221A || c == Char.ofNat 0xA5 || c == Char.ofNat 0x201A ||
  c == Char.ofNat 0xC4 || c == Char.ofNat 0xF4 || c == Char.ofNat 0xD6 ||
  c == Char.ofNat 0xA9 || c == Char.ofNat 0xA3 || c == Char.ofNat 0x2260 ||
  c == Char.ofNat 0xDF

/-- Backtracking of the greedy `[class]+` against the literal close
delimiter: `revKept` is the (reversed) token run still kept by `+`,
`rest` the text after it.  Try the longest token first, then give
characters back one at a time; the `+` keeps at least one character. -/
def btClose (cls : Str) : Str → Str → Option (Str × Str)
  | [], _ => none
  | c :: revKept, rest =>
    if cls.isPrefixOf rest then
      some ((c :: revKept).reverse, List.drop cls.length rest)
    else
      btClose cls revKept (c :: rest)

/-- One attempt of the compiled pattern `(open[class]+close)` at the head
of `s` (delimiters taken literally).  Returns the matched substring and
the remainder of the text after the match. -/
def matchShortcodeAt (opn cls : Str) (s : Str) : Option (Str × Str) :=
  if opn.isPrefixOf s then
    let s1 := s.drop opn.length
    let tok := s1.takeWhile isEmojiNameChar
    let rest0 := s1.dropWhile isEmojiNameChar
    match btClose cls tok.reverse rest0 with
    | some (tk, rest) => some (opn ++ tk ++ cls, rest)
    | none => none
  else none

/-- `emojize`'s normalisation of a matched shortcode:
`match.group(1).replace(open, ":").replace(close, ":")`. -/
def normalizeShortcode (opn cls m : Str) : Str :=
  pyReplace (pyReplace m opn [':']) cls [':']

/-- The `replace` callback of `emojize`. -/
def emojizeReplace (tbl : EmojiTable) (use_aliases : Bool) (opn cls : Str) (m : Str) : Str :=
  let mg := normalizeShortcode opn cls m
  if use_aliases then dictGet tbl.EMOJI_ALIAS_UNICODE mg mg
  else dictGet tbl.EMOJI_UNICODE mg mg

/-- The scanning loop of `pattern.sub(replace, string)` for the `emojize`
pattern, with explicit fuel (one unit per scan step; every match consumes
at least one character, so `fuel = string.length` never runs out). -/
def emojizeSubF (tbl : EmojiTable) (use_aliases : Bool) (opn cls : Str) :
    Nat → Str → Str
  | 0, s => s
  | fuel + 1, s =>
    match matchShortcodeAt opn cls s with
    | some (m, rest) =>
        emojizeReplace tbl use_aliases opn cls m ++
          emojizeSubF tbl use_aliases opn cls fuel rest
    | none =>
      match s with
      | [] => []
      | c :: s2 => c :: emojizeSubF tbl use_aliases opn cls fuel s2

/-- `emojize(string, use_aliases, delimiters=(opn, cls))`. -/
def emojize (tbl : EmojiTable) (use_aliases : Bool) (opn cls : Str) (string : Str) : Str :=
  emojizeSubF tbl use_aliases opn cls string.length string

/-- First alternative of the glyph alternation that matches at the head
of `s` (Python regex alternation is first-match, left to right). -/
def firstAltMatch (alts : List Str) (s : Str) : Option Str :=
  match alts with
  | [] => none
  | a :: rest => if a.isPrefixOf s then some a else firstAltMatch rest s

/-- Stable insertion (descending character count) for
`sorted(values, key=len, reverse=True)`. -/
def insertByLen (g : Str) : List Str → List Str
  | [] => [g]
  | h :: t => if g.length < h.length then h :: insertByLen g t else g :: h :: t

/-- `sorted(values, key=len, reverse=True)`: stable, longest first. -/
def sortByLenDesc : List Str → List Str
  | [] => []
  | h :: t => insertByLen h (sortByLenDesc t)

/-- The cached alternation pattern of `get_emoji_regexp`, modelled as its
ordered list of literal alternatives: the values of `EMOJI_UNICODE`
sorted by length, longest first. -/
def get_emoji_regexp (tbl : EmojiTable) : List Str :=
  sortByLenDesc (tbl.EMOJI_UNICODE.map Prod.snd)

/-- The `replace` callback of `demojize`:
`val = codes_dict.get(match.group(0), match.group(0))`, then
`delimiters[0] + val[1:-1] + delimiters[1]`. -/
def demojizeReplace (tbl : EmojiTable) (use_aliases : Bool) (opn cls : Str) (m : Str) : Str :=
  let codes_dict := if use_aliases then tbl.UNICODE_EMOJI_ALIAS else tbl.UNICODE_EMOJI
  let val := dictGet codes_dict m m
  opn ++ (val.drop 1).dropLast ++ cls

/-- The match attempt of the compiled glyph pattern
`"(" + "|".join(...) + ")"` at the head of `s`: with no alternatives the
pattern is `"()"`, which matches the empty string at every position;
otherwise the first listed alternative that is a prefix of `s` wins. -/
def reAltMatch (alts : List Str) (s : Str) : Option Str :=
  match alts with
  | [] => some []
  | _ => firstAltMatch alts s

/-- The scanning loop of `regexp.sub(repl, s)` for an alternation of
literal alternatives, with explicit fuel.  A zero-width match (an empty
alternative, or the empty alternation) inserts the replacement and
copies one character, as Python `re.sub` does; a zero-width match is
also tried once at the end of the text.  `fuel = s.length + 1` never
runs out. -/
def reSubAltsF (repl : Str → Str) (alts : List Str) : Nat → Str → Str
  | 0, s => s
  | _ + 1, [] =>
    (match reAltMatch alts [] with
     | some a => repl a
     | none => [])
  | fuel + 1, c :: s2 =>
    match reAltMatch alts (c :: s2) with
    | some [] => repl [] ++ c :: reSubAltsF repl alts fuel s2
    | some (a :: as) => repl (a :: as) ++ reSubAltsF repl alts fuel (s2.drop as.length)
    | none => c :: reSubAltsF repl alts fuel s2

/-- `regexp.sub(repl, s)` for a literal alternation. -/
def reSubAlts (repl : Str → Str) (alts : List Str) (s : Str) : Str :=
  reSubAltsF repl alts (s.length + 1) s

/-- `demojize(string, use_aliases, delimiters=(opn, cls))`: substitute on
the cached glyph alternation, then `re.sub(u"️", "", ...)` deletes
every remaining variation selector. -/
def demojize (tbl : EmojiTable) (use_aliases : Bool) (opn cls : Str) (string : Str) : Str :=
  (reSubAlts (demojizeReplace tbl use_aliases opn cls) (get_emoji_regexp tbl) string).filter
    (fun c => !(c == '️'))

/-- The enumeration loop of `emoji_lis`, carrying the running position. -/
def emojiLisAux (tbl : EmojiTable) (pos : Nat) : Str → List (Nat × Char)
  | [] => []
  | c :: rest =>
    if dictMem tbl.UNICODE_EMOJI [c] then
      (pos, c) :: emojiLisAux tbl (pos + 1) rest
    else
      emojiLisAux tbl (pos + 1) rest

/-- `emoji_lis(string)`: the `{"location": pos, "emoji": c}` records,
modelled as `(location, emoji)` pairs. -/
def emoji_lis (tbl : EmojiTable) (string : Str) : List (Nat × Char) :=
  emojiLisAux tbl 0 string

/-- `emoji_count(string)`. -/
def emoji_count (tbl : EmojiTable) : Str → Nat
  | [] => 0
  | c :: rest => (if dictMem tbl.UNICODE_EMOJI [c] then 1 else 0) + emoji_count tbl rest

/-- Python `format(i, "x")` on an `int` (lowercase hex, `-` sign). -/
def pyHexInt (i : Int) : Str :=
  if i < 0 then '-' :: Nat.toDigits 16 i.natAbs else Nat.toDigits 16 i.toNat

/-- A code point in the lead-surrogate range `0xD800-0xDBFF`. -/
def isLeadSurrogate (c : Nat) : Prop := 0xD800 ≤ c ∧ c ≤ 0xDBFF

instance (c : Nat) : Decidable (isLeadSurrogate c) := by
  unfold isLeadSurrogate; infer_instance

/-- The scanning loop of `to_code_point`: `p` is the pending lead
surrogate (`0` when none, as in the source).  When a lead is pending the
pair formula is applied to the next character unconditionally
(`if p:` does not test the trail range); a pending lead at the end of
the text is discarded. -/
def tcpLoop : Nat → List Nat → List Str
  | _, [] => []
  | p, c :: rest =>
    if p ≠ 0 then
      pyHexInt (0x10000 + ((p : Int) - 0xD800) * 1024 + ((c : Int) - 0xDC00)) :: tcpLoop 0 rest
    else if isLeadSurrogate c then
      tcpLoop c rest
    else
      pyHexInt (c : Int) :: tcpLoop 0 rest

/-- The pending lead surrogate left over after the loop consumes `s`. -/
def tcpFinal : Nat → List Nat → Nat
  | p, [] => p
  | p, c :: rest =>
    if p ≠ 0 then tcpFinal 0 rest
    else if isLeadSurrogate c then tcpFinal c rest
    else tcpFinal 0 rest

/-- Python `joiner.join(r)`. -/
def joinSep (j : Str) : List Str → Str
  | [] => []
  | [x] => x
  | x :: xs => x ++ j ++ joinSep j xs

/-- `to_code_point(string, joiner)` over code points (`List Nat`, one
entry per Python `str` character, lone surrogates allowed). -/
def to_code_point (string : List Nat) (joiner : Str) : Str :=
  let string1 :=
    if (!(string.contains 0x200D)) || (string.headD 0 == 0x1F441) then
      string.filter (fun c => !(c == 0xFE0F))
    else string
  joinSep joiner (tcpLoop 0 string1)

def tblThumbs : EmojiTable :=
  ⟨[(":thumbs_up:".data, "👍".data)],
   [(":thumbsup:".data, "👍".data)],
   [("👍".data, ":thumbs_up:".data)],
   [("👍".data, ":thumbsup:".data)]⟩

def tblPair : EmojiTable :=
  ⟨[(":pair:".data, "😀😁".data), (":grin:".data, "😀".data)],
   [],
   [("😀😁".data, ":pair:".data), ("😀".data, ":grin:".data)],
   []⟩

def tblEmpty : EmojiTable := ⟨[], [], [], []⟩

def tblCat : EmojiTable :=
  ⟨[(":cat:".data, "🐱".data)], [], [("🐱".data, ":cat:".data)], []⟩

def tblHushed : EmojiTable :=
  ⟨[(":hushed_face:".data, "😯".data)], [], [("😯".data, ":hushed_face:".data)], []⟩

theorem matchShortcodeAt_nil (opn cls : Str) :
    matchShortcodeAt opn cls [] = none := by
  unfold matchShortcodeAt
  by_cases h : opn.isPrefixOf ([] : Str)
  · simp only [h, if_true]
    have : ([] : Str).drop opn.length = [] := by simp
    simp [this, btClose]
  · simp [h]

theorem btClose_rest_lt {cls : Str} :
    ∀ (revKept rest tk r : Str), btClose cls revKept rest = some (tk, r) →
      r.length + 1 ≤ revKept.length + rest.length := by
  intro revKept
  induction revKept with
  | nil => intro rest tk r h; simp [btClose] at h
  | cons c revKept ih =>
    intro rest tk r h
    simp only [btClose] at h
    by_cases hp : cls.isPrefixOf rest
    · simp only [hp, if_true, Option.some.injEq, Prod.mk.injEq] at h
      have : r.length ≤ rest.length := by
        rw [← h.2]; simp
      simp only [List.length_cons]
      omega
    · simp only [hp, if_false] at h
      have := ih (c :: rest) tk r h
      simp only [List.length_cons] at this ⊢
      omega

theorem matchShortcodeAt_rest_lt {opn cls s m rest : Str}
    (h : matchShortcodeAt opn cls s = some (m, rest)) : rest.length < s.length := by
  unfold matchShortcodeAt at h
  by_cases hp : opn.isPrefixOf s
  · simp only [hp, if_true] at h
    set s1 := s.drop opn.length with hs1
    set tok := s1.takeWhile isEmojiNameChar with htok
    set rest0 := s1.dropWhile isEmojiNameChar with hrest0
    cases hbt : btClose cls tok.reverse rest0 with
    | none => rw [hbt] at h; simp at h
    | some pr =>
      rw [hbt] at h
      obtain ⟨tk, r⟩ := pr
      simp only [Option.some.injEq, Prod.mk.injEq] at h
      have hlt := btClose_rest_lt tok.reverse rest0 tk r hbt
      have hsplit : tok.length + rest0.length = s1.length := by
        have := List.takeWhile_append_dropWhile (p := isEmojiNameChar) (l := s1)
        calc tok.length + rest0.length = (tok ++ rest0).length := by
              simp [List.length_append]
          _ = s1.length := by rw [htok, hrest0, this]
      have hs1len : s1.length ≤ s.length := by
        rw [hs1]; simp
      have : rest.length = r.length := by rw [← h.2]
      simp only [List.length_reverse] at hlt
      omega
  · simp [hp] at h

theorem isPrefixOf_iff_exists_append {α : Type} [DecidableEq α] :
    ∀ (a b : List α), a.isPrefixOf b = true ↔ ∃ t, b = a ++ t := by
  intro a
  induction a with
  | nil => intro b; simp [List.isPrefixOf]
  | cons x xs ih =>
    intro b
    cases b with
    | nil => simp [List.isPrefixOf]
    | cons y ys =>
      simp only [List.isPrefixOf, Bool.and_eq_true, beq_iff_eq, ih ys]
      constructor
      · rintro ⟨rfl, t, rfl⟩; exact ⟨t, rfl⟩
      · rintro ⟨t, h⟩
        simp only [List.cons_append, List.cons.injEq] at h
        exact ⟨h.1.symm, t, h.2⟩

theorem length_le_of_isPrefixOf {a b : Str} (h : a.isPrefixOf b = true) :
    a.length ≤ b.length := by
  obtain ⟨t, rfl⟩ := (isPrefixOf_iff_exists_append a b).mp h
  simp

theorem eq_of_isPrefixOf_of_length_le {a b : Str} (h : a.isPrefixOf b = true)
    (hl : b.length ≤ a.length) : a = b := by
  obtain ⟨t, rfl⟩ := (isPrefixOf_iff_exists_append a b).mp h
  simp only [List.length_append] at hl
  have ht : t.length = 0 := by omega
  have : t = [] := List.length_eq_zero.mp ht
  simp [this]

theorem isPrefixOf_nil_iff {a : Str} : a.isPrefixOf ([] : Str) = true ↔ a = [] := by
  rw [isPrefixOf_iff_exists_append]
  constructor
  · rintro ⟨t, h⟩
    rcases a with _ | ⟨c, a⟩
    · rfl
    · simp at h
  · rintro rfl; exact ⟨[], rfl⟩

theorem isPrefixOf_append_self (a t : Str) : a.isPrefixOf (a ++ t) = true :=
  (isPrefixOf_iff_exists_append a (a ++ t)).mpr ⟨t, rfl⟩

/-- Fuel irrelevance for the `emojize` scan: any fuel at least the text
length gives the same result. -/
theorem emojizeSubF_fuel (tbl : EmojiTable) (ua : Bool) (opn cls : Str) :
    ∀ (f1 : Nat), ∀ (s : Str), ∀ (f2 : Nat), s.length ≤ f1 → s.length ≤ f2 →
      emojizeSubF tbl ua opn cls f1 s = emojizeSubF tbl ua opn cls f2 s := by
  intro f1
  induction f1 with
  | zero =>
    intro s f2 h1 _
    have hs : s = [] := List.length_eq_zero.mp (by omega)
    subst hs
    cases f2 with
    | zero => rfl
    | succ f2 => simp [emojizeSubF, matchShortcodeAt_nil]
  | succ f1 ih =>
    intro s f2 h1 h2
    cases hm : matchShortcodeAt opn cls s with
    | some pr =>
      obtain ⟨m, rest⟩ := pr
      have hlt : rest.length < s.length := matchShortcodeAt_rest_lt hm
      have hs : s ≠ [] := by
        intro h; subst h; rw [matchShortcodeAt_nil] at hm; exact Option.noConfusion hm
      have hslen : 1 ≤ s.length := List.length_pos.mpr hs
      cases f2 with
      | zero => omega
      | succ f2 =>
        simp only [emojizeSubF, hm]
        rw [ih rest f2 (by omega) (by omega)]
    | none =>
      cases s with
      | nil =>
        cases f2 with
        | zero => simp [emojizeSubF, matchShortcodeAt_nil]
        | succ f2 => simp [emojizeSubF, matchShortcodeAt_nil]
      | cons c s2 =>
        simp only [List.length_cons] at h1 h2
        cases f2 with
        | zero => omega
        | succ f2 =>
          simp only [emojizeSubF, hm]
          rw [ih s2 f2 (by omega) (by omega)]

/-- One scan step of `emojize` at a successful match. -/
theorem emojize_cons_of_match {tbl : EmojiTable} {ua : Bool} {opn cls s m rest : Str}
    (hm : matchShortcodeAt opn cls s = some (m, rest)) :
    emojize tbl ua opn cls s =
      emojizeReplace tbl ua opn cls m ++ emojize tbl ua opn cls rest := by
  have hlt : rest.length < s.length := matchShortcodeAt_rest_lt hm
  have hs : s ≠ [] := by
    intro h; subst h; rw [matchShortcodeAt_nil] at hm; exact Option.noConfusion hm
  have hslen : 1 ≤ s.length := List.length_pos.mpr hs
  unfold emojize
  obtain ⟨k, hk⟩ : ∃ k, s.length = k + 1 := ⟨s.length - 1, by omega⟩
  rw [hk]
  simp only [emojizeSubF, hm]
  rw [emojizeSubF_fuel tbl ua opn cls k rest rest.length (by omega) (by omega)]

/-- `emojize` on the empty string. -/
theorem emojize_nil (tbl : EmojiTable) (ua : Bool) (opn cls : Str) :
    emojize tbl ua opn cls [] = [] := rfl

theorem takeWhile_append_stop {p : Char → Bool} :
    ∀ (n : Str) (x : Char), (∀ c ∈ n, p c = true) → p x = false →
      (n ++ [x]).takeWhile p = n ∧ (n ++ [x]).dropWhile p = [x] := by
  intro n
  induction n with
  | nil =>
    intro x _ hx
    simp [List.takeWhile, List.dropWhile, hx]
  | cons c n ih =>
    intro x hall hx
    have hc : p c = true := hall c (by simp)
    have ih2 := ih x (fun d hd => hall d (by simp [hd])) hx
    constructor
    · simp [List.takeWhile_cons, hc, ih2.1]
    · simp [List.dropWhile_cons, hc, ih2.2]

theorem pyReplaceAux_same_single (x : Char) :
    ∀ (fuel : Nat) (s : Str), pyReplaceAux [x] [x] fuel s = s := by
  intro fuel
  induction fuel with
  | zero => intro s; rfl
  | succ fuel ih =>
    intro s
    cases s with
    | nil => rfl
    | cons c s2 =>
      rw [pyReplaceAux]
      by_cases hc : x = c
      · subst hc
        rw [if_pos]
        · simp only [List.drop, List.drop_zero]
          rw [ih]
          rfl
        · simp [List.isPrefixOf]
      · rw [if_neg]
        · rw [ih]
        · simp [List.isPrefixOf, hc]

theorem normalizeShortcode_default (m : Str) :
    normalizeShortcode [':'] [':'] m = m := by
  unfold normalizeShortcode pyReplace
  rw [if_neg (by simp), pyReplaceAux_same_single, if_neg (by simp), pyReplaceAux_same_single]

theorem matchShortcodeAt_exact (n : Str) (hn : n ≠ [])
    (hcls : ∀ c ∈ n, isEmojiNameChar c = true) :
    matchShortcodeAt [':'] [':'] (':' :: (n ++ [':'])) = some (':' :: (n ++ [':']), []) := by
  have hpre : ([':'] : Str).isPrefixOf (':' :: (n ++ [':'])) = true := by
    simp [List.isPrefixOf]
  have hcolon : isEmojiNameChar ':' = false := by decide
  have htk := takeWhile_append_stop n ':' hcls hcolon
  have hrevne : n.reverse ≠ [] := by simpa using hn
  obtain ⟨c, rk, hrev⟩ := List.exists_cons_of_ne_nil hrevne
  have hbt : btClose [':'] n.reverse [':'] = some (n, []) := by
    rw [hrev]
    unfold btClose
    rw [if_pos (by simp [List.isPrefixOf])]
    rw [← hrev, List.reverse_reverse]
    rfl
  unfold matchShortcodeAt
  rw [if_pos hpre]
  simp only [List.length_cons, List.length_nil, Nat.zero_add, List.drop_succ_cons,
    List.drop_zero, htk.1, htk.2, hbt]
  rfl

/-- `emojize` in either naming mode maps an exact known shortcode, with
the default `:` delimiters, to its glyph.  This is the first half of the
round-trip. -/
theorem emojize_exact_shortcode (tbl : EmojiTable) (ua : Bool) (n g : Str) (hn : n ≠ [])
    (hcls : ∀ c ∈ n, isEmojiNameChar c = true)
    (hg : dictFind (if ua then tbl.EMOJI_ALIAS_UNICODE else tbl.EMOJI_UNICODE)
      (':' :: (n ++ [':'])) = some g) :
    emojize tbl ua [':'] [':'] (':' :: (n ++ [':'])) = g := by
  rw [emojize_cons_of_match (matchShortcodeAt_exact n hn hcls), emojize_nil, List.append_nil]
  unfold emojizeReplace
  rw [normalizeShortcode_default]
  cases ua with
  | false =>
    simp only [Bool.false_eq_true, if_false] at hg ⊢
    unfold dictGet
    rw [hg]
    rfl
  | true =>
    simp only [if_true] at hg ⊢
    unfold dictGet
    rw [hg]
    rfl

theorem mem_insertByLen {g a : Str} : ∀ (l : List Str), a ∈ insertByLen g l ↔ a = g ∨ a ∈ l := by
  intro l
  induction l with
  | nil => simp [insertByLen]
  | cons h t ih =>
    unfold insertByLen
    by_cases hlt : g.length < h.length
    · rw [if_pos hlt]
      simp only [List.mem_cons, ih]
      tauto
    · rw [if_neg hlt]
      simp only [List.mem_cons]

theorem mem_sortByLenDesc {a : Str} : ∀ (l : List Str), a ∈ sortByLenDesc l ↔ a ∈ l := by
  intro l
  induction l with
  | nil => simp [sortByLenDesc]
  | cons h t ih =>
    unfold sortByLenDesc
    rw [mem_insertByLen]
    simp only [List.mem_cons, ih]

theorem pairwise_insertByLen {g : Str} :
    ∀ (l : List Str), List.Pairwise (fun x y => y.length ≤ x.length) l →
      List.Pairwise (fun x y => y.length ≤ x.length) (insertByLen g l) := by
  intro l
  induction l with
  | nil => intro _; simp [insertByLen]
  | cons h t ih =>
    intro hp
    rw [List.pairwise_cons] at hp
    unfold insertByLen
    by_cases hlt : g.length < h.length
    · rw [if_pos hlt]
      rw [List.pairwise_cons]
      constructor
      · intro b hb
        rcases (mem_insertByLen t).mp hb with rfl | hbt
        · omega
        · exact hp.1 b hbt
      · exact ih hp.2
    · rw [if_neg hlt]
      rw [List.pairwise_cons]
      constructor
      · intro b hb
        rcases List.mem_cons.mp hb with rfl | hbt
        · omega
        · have := hp.1 b hbt
          omega
      · exact List.pairwise_cons.mpr hp

theorem pairwise_sortByLenDesc :
    ∀ (l : List Str), List.Pairwise (fun x y => y.length ≤ x.length) (sortByLenDesc l) := by
  intro l
  induction l with
  | nil => simp [sortByLenDesc]
  | cons h t ih => exact pairwise_insertByLen (sortByLenDesc t) ih

theorem firstAltMatch_nil_of_ne :
    ∀ (alts : List Str), (∀ a ∈ alts, a ≠ []) → firstAltMatch alts [] = none := by
  intro alts
  induction alts with
  | nil => intro _; rfl
  | cons a rest ih =>
    intro hne
    unfold firstAltMatch
    rw [if_neg]
    · exact ih (fun b hb => hne b (by simp [hb]))
    · intro hcontra
      exact hne a (by simp) (isPrefixOf_nil_iff.mp hcontra)

/-- In a longest-first alternation the alternative matching an exact
alternative text `g` is `g` itself: every alternative listed no later
than `g` is at least as long, and a prefix of `g` at least as long as
`g` is `g`. -/
theorem firstAltMatch_self :
    ∀ (alts : List Str) (g : Str),
      List.Pairwise (fun x y => y.length ≤ x.length) alts → g ∈ alts →
      firstAltMatch alts g = some g := by
  intro alts
  induction alts with
  | nil => intro g _ hg; simp at hg
  | cons a rest ih =>
    intro g hp hg
    rw [List.pairwise_cons] at hp
    unfold firstAltMatch
    by_cases hpre : a.isPrefixOf g
    · rw [if_pos hpre]
      rcases List.mem_cons.mp hg with rfl | hgt
      · rfl
      · have h1 : g.length ≤ a.length := hp.1 g hgt
        have := eq_of_isPrefixOf_of_length_le hpre h1
        rw [this]
    · rw [if_neg hpre]
      rcases List.mem_cons.mp hg with rfl | hgt
      · exact absurd (by simp) hpre
      · exact ih g hp.2 hgt

theorem reAltMatch_of_ne_nil {alts : List Str} (h : alts ≠ []) (s : Str) :
    reAltMatch alts s = firstAltMatch alts s := by
  cases alts with
  | nil => exact absurd rfl h
  | cons a t => rfl

/-- A substitution pass over a text equal to one alternative of a
longest-first alternation (no empty alternatives) performs exactly one
replacement, of the whole text. -/
theorem reSubAlts_exact (repl : Str → Str) (alts : List Str) (g : Str)
    (hsorted : List.Pairwise (fun x y => y.length ≤ x.length) alts)
    (hne : ∀ a ∈ alts, a ≠ []) (hg : g ∈ alts) :
    reSubAlts repl alts g = repl g := by
  have hgne : g ≠ [] := hne g hg
  have haltsne : alts ≠ [] := List.ne_nil_of_mem hg
  obtain ⟨c, s2, rfl⟩ := List.exists_cons_of_ne_nil hgne
  have hfam : reAltMatch alts (c :: s2) = some (c :: s2) := by
    rw [reAltMatch_of_ne_nil haltsne]
    exact firstAltMatch_self alts (c :: s2) hsorted hg
  unfold reSubAlts
  simp only [List.length_cons]
  show reSubAltsF repl alts (s2.length + 1 + 1) (c :: s2) = repl (c :: s2)
  unfold reSubAltsF
  rw [hfam]
  simp only [List.drop_length]
  show repl (c :: s2) ++ reSubAltsF repl alts (s2.length + 1) [] = repl (c :: s2)
  cases hl : s2.length + 1 with
  | zero => omega
  | succ k =>
    unfold reSubAltsF
    rw [reAltMatch_of_ne_nil haltsne, firstAltMatch_nil_of_ne alts hne]
    simp

/-- `demojize` on a text equal to a single table glyph performs exactly
one replacement of that glyph, then the final variation-selector
deletion pass. -/
theorem demojize_exact_glyph (tbl : EmojiTable) (ua : Bool) (opn cls g : Str)
    (hvals : ∀ v ∈ tbl.EMOJI_UNICODE.map Prod.snd, v ≠ [])
    (hg : g ∈ tbl.EMOJI_UNICODE.map Prod.snd) :
    demojize tbl ua opn cls g =
      (demojizeReplace tbl ua opn cls g).filter (fun c => !(c == '️')) := by
  unfold demojize get_emoji_regexp
  rw [reSubAlts_exact _ _ _ (pairwise_sortByLenDesc _)
    (fun a ha => hvals a ((mem_sortByLenDesc _).mp ha))
    ((mem_sortByLenDesc _).mpr hg)]

theorem dictFind_mem_values {d : List (Str × Str)} {k v : Str}
    (h : dictFind d k = some v) : v ∈ d.map Prod.snd := by
  induction d with
  | nil => simp [dictFind] at h
  | cons p rest ih =>
    obtain ⟨k2, v2⟩ := p
    unfold dictFind at h
    by_cases hk : k2 = k
    · rw [if_pos hk] at h
      simp only [Option.some.injEq] at h
      simp [h]
    · rw [if_neg hk] at h
      simp [ih h]

theorem demojizeReplace_known {tbl : EmojiTable} {ua : Bool} {opn cls g name : Str}
    (hv : dictFind (if ua then tbl.UNICODE_EMOJI_ALIAS else tbl.UNICODE_EMOJI) g = some name) :
    demojizeReplace tbl ua opn cls g = opn ++ (name.drop 1).dropLast ++ cls := by
  unfold demojizeReplace dictGet
  cases ua with
  | false =>
    simp only [Bool.false_eq_true, if_false] at hv ⊢
    rw [hv]
    rfl
  | true =>
    simp only [if_true] at hv ⊢
    rw [hv]
    rfl

theorem emojiNameChar_ne_fe0f {c : Char} (h : isEmojiNameChar c = true) : c ≠ '️' := by
  intro hc
  subst hc
  exact absurd h (by decide)

theorem filter_fe0f_wrap {x : Str} (h : ∀ d ∈ x, d ≠ '️') :
    (':' :: (x ++ [':'])).filter (fun c => !(c == '️')) = ':' :: (x ++ [':']) := by
  rw [List.filter_eq_self]
  intro a ha
  rcases List.mem_cons.mp ha with rfl | ha2
  · decide
  · rcases List.mem_append.mp ha2 with h3 | h4
    · simpa using h a h3
    · simp only [List.mem_singleton] at h4
      subst h4
      decide

theorem dropLast_wrap (x : Str) : ((':' :: (x ++ [':'])).drop 1).dropLast = x := by
  simp

/-- `demojize`, with default delimiters, maps a text equal to a known
glyph to that glyph's delimiter-wrapped inner name. -/
theorem demojize_known_glyph (tbl : EmojiTable) (ua : Bool) (g n : Str)
    (hvals : ∀ v ∈ tbl.EMOJI_UNICODE.map Prod.snd, v ≠ [])
    (hg : g ∈ tbl.EMOJI_UNICODE.map Prod.snd)
    (hv : dictFind (if ua then tbl.UNICODE_EMOJI_ALIAS else tbl.UNICODE_EMOJI) g =
      some (':' :: (n ++ [':'])))
    (hclean : ∀ d ∈ n, d ≠ '️') :
    demojize tbl ua [':'] [':'] g = ':' :: (n ++ [':']) := by
  rw [demojize_exact_glyph tbl ua [':'] [':'] g hvals hg, demojizeReplace_known hv,
    dropLast_wrap]
  exact filter_fe0f_wrap hclean

/-- C1: Round-trip.  For a canonical name `n` whose shortcode `:n:` maps
to glyph `g` and whose glyph maps back to the same shortcode in the
inverse table, `demojize(emojize(":n:")) == ":n:"` with canonical mode
and default `:` delimiters on both calls; likewise in alias mode for an
aliased name `a`, whose glyph must also occur among the canonical glyph
values because the scan pattern of `demojize` is always built from
`EMOJI_UNICODE`. -/
theorem C1_round_trip (tbl : EmojiTable) (n a g g2 : Str)
    (hvals : ∀ v ∈ tbl.EMOJI_UNICODE.map Prod.snd, v ≠ [])
    (hn : n ≠ []) (hncls : ∀ c ∈ n, isEmojiNameChar c = true)
    (hn1 : dictFind tbl.EMOJI_UNICODE (':' :: (n ++ [':'])) = some g)
    (hn2 : dictFind tbl.UNICODE_EMOJI g = some (':' :: (n ++ [':'])))
    (ha : a ≠ []) (hacls : ∀ c ∈ a, isEmojiNameChar c = true)
    (ha1 : dictFind tbl.EMOJI_ALIAS_UNICODE (':' :: (a ++ [':'])) = some g2)
    (ha2 : dictFind tbl.UNICODE_EMOJI_ALIAS g2 = some (':' :: (a ++ [':'])))
    (hg2 : g2 ∈ tbl.EMOJI_UNICODE.map Prod.snd) :
    demojize tbl false [':'] [':'] (emojize tbl false [':'] [':'] (':' :: (n ++ [':']))) =
      ':' :: (n ++ [':']) ∧
    demojize tbl true [':'] [':'] (emojize tbl true [':'] [':'] (':' :: (a ++ [':']))) =
      ':' :: (a ++ [':']) := by
  constructor
  · rw [emojize_exact_shortcode tbl false n g hn hncls hn1]
    exact demojize_known_glyph tbl false g n hvals (dictFind_mem_values hn1)
      hn2 (fun d hd => emojiNameChar_ne_fe0f (hncls d hd))
  · rw [emojize_exact_shortcode tbl true a g2 ha hacls ha1]
    exact demojize_known_glyph tbl true g2 a hvals hg2
      ha2 (fun d hd => emojiNameChar_ne_fe0f (hacls d hd))

theorem C1_round_trip_witness :
    demojize tblThumbs false [':'] [':']
        (emojize tblThumbs false [':'] [':'] (':' :: ("thumbs_up".data ++ [':']))) =
      ':' :: ("thumbs_up".data ++ [':']) ∧
    demojize tblThumbs true [':'] [':']
        (emojize tblThumbs true [':'] [':'] (':' :: ("thumbsup".data ++ [':']))) =
      ':' :: ("thumbsup".data ++ [':']) :=
  C1_round_trip tblThumbs "thumbs_up".data "thumbsup".data "👍".data "👍".data
    (by decide) (by decide) (by decide) (by decide) (by decide)
    (by decide) (by decide) (by decide) (by decide) (by decide)

/-- C2: Longest-match ordering.  If a multi-codepoint glyph `g` and a
single-codepoint component `c` of it are both keys of the
glyph-to-name mapping, `demojize` on the text consisting of the
multi-codepoint glyph yields the multi-codepoint glyph's name and never
the component's name: the alternation pattern lists glyphs by
non-increasing length, so `g` itself is matched before any shorter
component. -/
theorem C2_longest_match (tbl : EmojiTable) (g : Str) (c : Char) (nameG nameC : Str)
    (hvals : ∀ v ∈ tbl.EMOJI_UNICODE.map Prod.snd, v ≠ [])
    (hglen : 2 ≤ g.length)
    (hgmem : g ∈ tbl.EMOJI_UNICODE.map Prod.snd)
    (hcomp : c ∈ g)
    (hG : dictFind tbl.UNICODE_EMOJI g = some (':' :: (nameG ++ [':'])))
    (hC : dictFind tbl.UNICODE_EMOJI [c] = some (':' :: (nameC ++ [':'])))
    (hGclean : ∀ d ∈ nameG, d ≠ '️')
    (hne : nameG ≠ nameC) :
    demojize tbl false [':'] [':'] g = ':' :: (nameG ++ [':']) ∧
    demojize tbl false [':'] [':'] g ≠ ':' :: (nameC ++ [':']) := by
  have h1 : demojize tbl false [':'] [':'] g = ':' :: (nameG ++ [':']) :=
    demojize_known_glyph tbl false g nameG hvals hgmem hG hGclean
  refine ⟨h1, ?_⟩
  rw [h1]
  intro hbad
  simp only [List.cons.injEq] at hbad
  have := congrArg List.dropLast hbad.2
  simp only [List.dropLast_concat] at this
  exact hne this

theorem C2_longest_match_witness :
    demojize tblPair false [':'] [':'] "😀😁".data = ':' :: ("pair".data ++ [':']) ∧
    demojize tblPair false [':'] [':'] "😀😁".data ≠ ':' :: ("grin".data ++ [':']) :=
  C2_longest_match tblPair "😀😁".data '😀' "pair".data "grin".data
    (by decide) (by decide) (by decide) (by decide) (by decide)
    (by decide) (by decide) (by decide)

/-- C9: the output of `demojize` never contains U+FE0F, whatever the
table, mode, delimiters (even delimiters containing U+FE0F) and input:
the final global substitution pass deletes every remaining variation
selector. -/
theorem C9_demojize_no_fe0f (tbl : EmojiTable) (ua : Bool) (opn cls s : Str) :
    '️' ∉ demojize tbl ua opn cls s := by
  unfold demojize
  intro h
  have h2 := (List.mem_filter.mp h).2
  simp at h2

/-- C10: `to_code_point` on the empty string returns the empty string
(no failure: the `string[0]` access is short-circuited away and the scan
loop runs zero iterations). -/
theorem C10_to_code_point_empty (j : Str) : to_code_point [] j = [] := rfl

theorem emojiLisAux_length (tbl : EmojiTable) :
    ∀ (s : Str) (k : Nat), (emojiLisAux tbl k s).length = emoji_count tbl s := by
  intro s
  induction s with
  | nil => intro k; rfl
  | cons c s2 ih =>
    intro k
    unfold emojiLisAux emoji_count
    by_cases h : dictMem tbl.UNICODE_EMOJI [c] = true
    · rw [if_pos h, if_pos h]
      simp only [List.length_cons, ih]
      omega
    · rw [if_neg h, if_neg h]
      simp [ih]

theorem emojiLisAux_mem (tbl : EmojiTable) :
    ∀ (s : Str) (k p : Nat) (c : Char),
      (p, c) ∈ emojiLisAux tbl k s ↔
        ∃ i, p = k + i ∧ s[i]? = some c ∧ dictMem tbl.UNICODE_EMOJI [c] = true := by
  intro s
  induction s with
  | nil => intro k p c; simp [emojiLisAux]
  | cons d s2 ih =>
    intro k p c
    unfold emojiLisAux
    by_cases h : dictMem tbl.UNICODE_EMOJI [d] = true
    · rw [if_pos h]
      simp only [List.mem_cons, Prod.mk.injEq, ih]
      constructor
      · rintro (⟨rfl, rfl⟩ | ⟨i, rfl, hg, hm⟩)
        · exact ⟨0, by omega, by simp, h⟩
        · exact ⟨i + 1, by omega, by simpa using hg, hm⟩
      · rintro ⟨i, rfl, hg, hm⟩
        cases i with
        | zero =>
          left
          simp only [List.getElem?_cons_zero, Option.some.injEq] at hg
          exact ⟨by omega, hg.symm⟩
        | succ j =>
          right
          exact ⟨j, by omega, by simpa using hg, hm⟩
    · rw [if_neg h]
      rw [ih]
      constructor
      · rintro ⟨i, rfl, hg, hm⟩
        exact ⟨i + 1, by omega, by simpa using hg, hm⟩
      · rintro ⟨i, rfl, hg, hm⟩
        cases i with
        | zero =>
          simp only [List.getElem?_cons_zero, Option.some.injEq] at hg
          exact absurd (hg ▸ hm) h
        | succ j =>
          exact ⟨j, by omega, by simpa using hg, hm⟩

/-- C8: Counter/Locator agreement.  `emoji_count(s)` equals the length
of `emoji_lis(s)`, and both classify exactly the single characters of
`s` that are keys of the glyph-to-canonical-name mapping. -/
theorem C8_count_locate (tbl : EmojiTable) (s : Str) :
    emoji_count tbl s = (emoji_lis tbl s).length ∧
    (∀ (p : Nat) (c : Char), (p, c) ∈ emoji_lis tbl s ↔
      (s[p]? = some c ∧ dictMem tbl.UNICODE_EMOJI [c] = true)) := by
  constructor
  · rw [emoji_lis, emojiLisAux_length]
  · intro p c
    rw [emoji_lis, emojiLisAux_mem]
    constructor
    · rintro ⟨i, rfl, hg, hm⟩
      simp only [Nat.zero_add]
      exact ⟨hg, hm⟩
    · rintro ⟨hg, hm⟩
      exact ⟨p, by omega, hg, hm⟩

/-- C3 counterexample: with delimiters `("__", "__")` and an empty
table, the scanned substring `"__x__"` has normalized key `":x:"`,
which is not in the mapping — yet the output is `":x:"`, not the
original matched substring `"__x__"` (which cannot even fit in the
3-character output). -/
theorem C3_counterexample :
    emojize tblEmpty false "__".data "__".data "__x__".data = ":x:".data ∧
    ":x:".data ≠ "__x__".data ∧
    (emojize tblEmpty false "__".data "__".data "__x__".data).length <
      ("__x__".data).length := by
  refine ⟨by decide, by decide, by decide⟩

/-- C3 (amended): a scanned `open+token+close` substring whose
normalized key is missing from the selected mapping is replaced by its
normalized form — every occurrence of the open and close delimiter
strings inside the match rewritten to `:` — rather than echoed back
verbatim.  With the default `:` delimiters, normalization is the
identity, so only there does the original matched substring survive
unchanged. -/
theorem C3_unknown_normalized (tbl : EmojiTable) (ua : Bool) (opn cls s m rest : Str)
    (hm : matchShortcodeAt opn cls s = some (m, rest))
    (hmg : dictFind (if ua then tbl.EMOJI_ALIAS_UNICODE else tbl.EMOJI_UNICODE)
      (normalizeShortcode opn cls m) = none) :
    emojize tbl ua opn cls s =
      normalizeShortcode opn cls m ++ emojize tbl ua opn cls rest ∧
    normalizeShortcode [':'] [':'] m = m := by
  refine ⟨?_, normalizeShortcode_default m⟩
  rw [emojize_cons_of_match hm]
  congr 1
  unfold emojizeReplace dictGet
  cases ua with
  | false =>
    simp only [Bool.false_eq_true, if_false] at hmg ⊢
    rw [hmg]
    rfl
  | true =>
    simp only [if_true] at hmg ⊢
    rw [hmg]
    rfl

theorem C3_unknown_normalized_witness :
    emojize tblEmpty true "__".data "__".data "__y__".data =
      normalizeShortcode "__".data "__".data "__y__".data ++
        emojize tblEmpty true "__".data "__".data [] ∧
    normalizeShortcode [':'] [':'] "__y__".data = "__y__".data :=
  C3_unknown_normalized tblEmpty true "__".data "__".data "__y__".data "__y__".data []
    (by decide) (by decide)

/-- C4 counterexample: the glyph `🐱` is a key of the scan pattern (a
value of `EMOJI_UNICODE`) but absent from the alias inverse mapping; in
alias mode `demojize` emits `"::"` — the glyph with its first and last
character stripped, wrapped in delimiters — not the original glyph. -/
theorem C4_counterexample :
    demojize tblCat true [':'] [':'] "🐱".data = "::".data ∧
    "::".data ≠ "🐱".data := by
  refine ⟨by decide, by decide⟩

/-- C4 (amended): when a scanned glyph is absent from the selected
alias-or-canonical inverse mapping, `demojize` does not echo the
original matched glyph text: the fallback binds `val` to the glyph
itself and still computes `open ++ val[1:-1] ++ close`, so the glyph
loses its first and last character and gains the delimiters (the final
variation-selector deletion then applies as usual). -/
theorem C4_fallback_mangles (tbl : EmojiTable) (ua : Bool) (opn cls g : Str)
    (hvals : ∀ v ∈ tbl.EMOJI_UNICODE.map Prod.snd, v ≠ [])
    (hg : g ∈ tbl.EMOJI_UNICODE.map Prod.snd)
    (habsent : dictFind (if ua then tbl.UNICODE_EMOJI_ALIAS else tbl.UNICODE_EMOJI) g =
      none) :
    demojize tbl ua opn cls g =
      (opn ++ (g.drop 1).dropLast ++ cls).filter (fun c => !(c == '️')) := by
  rw [demojize_exact_glyph tbl ua opn cls g hvals hg]
  congr 1
  unfold demojizeReplace dictGet
  cases ua with
  | false =>
    simp only [Bool.false_eq_true, if_false] at habsent ⊢
    rw [habsent]
    rfl
  | true =>
    simp only [if_true] at habsent ⊢
    rw [habsent]
    rfl

theorem C4_fallback_mangles_witness :
    demojize tblCat true [':'] [':'] "🐱".data =
      (([':'] : Str) ++ ("🐱".data.drop 1).dropLast ++ [':']).filter
        (fun c => !(c == '️')) :=
  C4_fallback_mangles tblCat true [':'] [':'] "🐱".data (by decide) (by decide) (by decide)

/-- C7 counterexample: with the table mapping U+1F62F to
`:hushed_face:` and delimiters `(" __", "__ ")`, `demojize` does not
return `"Unicode is tricky __hushed_face__ "` — the replacement glues
the opening delimiter's leading space onto the space already present in
the text, so there are two spaces before `__`. -/
theorem C7_counterexample :
    demojize tblHushed false " __".data "__ ".data "Unicode is tricky 😯".data ≠
      "Unicode is tricky __hushed_face__ ".data := by
  decide

/-- C7 (amended): the exact output carries two spaces before the
opening `__` (the text's own space plus the delimiter's leading space)
and one trailing space from the closing delimiter:
`"Unicode is tricky  __hushed_face__ "`. -/
theorem C7_exact_output :
    demojize tblHushed false " __".data "__ ".data "Unicode is tricky 😯".data =
      "Unicode is tricky  __hushed_face__ ".data := by
  decide

/-- C5 counterexample: the eye-in-speech-bubble sequence
`U+1F441 U+FE0F U+200D U+1F5E8 U+FE0F` contains a ZWJ and begins with
U+1F441, yet its variation selectors are STRIPPED (the claim says they
are retained in that case): the output is `"1f441-200d-1f5e8"`, not the
retained encoding `"1f441-fe0f-200d-1f5e8-fe0f"`. -/
theorem C5_counterexample :
    to_code_point [0x1F441, 0xFE0F, 0x200D, 0x1F5E8, 0xFE0F] ['-'] = "1f441-200d-1f5e8".data ∧
    to_code_point [0x1F441, 0xFE0F, 0x200D, 0x1F5E8, 0xFE0F] ['-'] ≠
      "1f441-fe0f-200d-1f5e8-fe0f".data := by
  refine ⟨by decide, by decide⟩

/-- C5 (amended): U+FE0F is stripped whenever the input contains no
U+200D or begins with U+1F441 — beginning with the eye-in-speech-bubble
glyph forces stripping even when a ZWJ is present; the selectors are
retained exactly when a ZWJ is present and the first character is not
U+1F441. -/
theorem C5_strip_condition (s : List Nat) (j : Str) :
    ((s.contains 0x200D = false ∨ s.headD 0 = 0x1F441) →
      to_code_point s j = to_code_point (s.filter (fun c => !(c == 0xFE0F))) j) ∧
    ((s.contains 0x200D = true ∧ s.headD 0 ≠ 0x1F441) →
      to_code_point s j = joinSep j (tcpLoop 0 s)) := by
  constructor
  · intro h
    have hcond : ((!(s.contains 0x200D)) || (s.headD 0 == 0x1F441)) = true := by
      rw [Bool.or_eq_true_iff, Bool.not_eq_true']
      rcases h with h | h
      · exact Or.inl h
      · exact Or.inr (beq_iff_eq.mpr h)
    have hmain : to_code_point s j =
        joinSep j (tcpLoop 0 (s.filter (fun c => !(c == 0xFE0F)))) := by
      unfold to_code_point
      rw [if_pos hcond]
    rw [hmain]
    have hidem : (s.filter (fun c => !(c == 0xFE0F))).filter (fun c => !(c == 0xFE0F)) =
        s.filter (fun c => !(c == 0xFE0F)) := by
      rw [List.filter_eq_self]
      intro a ha
      exact (List.mem_filter.mp ha).2
    unfold to_code_point
    by_cases hc2 : ((!((s.filter (fun c => !(c == 0xFE0F))).contains 0x200D)) ||
        ((s.filter (fun c => !(c == 0xFE0F))).headD 0 == 0x1F441)) = true
    · rw [if_pos hc2, hidem]
    · rw [if_neg hc2]
  · rintro ⟨h1, h2⟩
    have hcond : ((!(s.contains 0x200D)) || (s.headD 0 == 0x1F441)) = false := by
      rw [Bool.or_eq_false_iff, Bool.not_eq_false']
      exact ⟨h1, beq_eq_false_iff_ne.mpr h2⟩
    unfold to_code_point
    rw [if_neg (by rw [hcond]; exact Bool.false_ne_true)]

theorem C5_strip_condition_witness :
    to_code_point [0x1F441, 0xFE0F, 0x200D] ['-'] =
      to_code_point ([0x1F441, 0xFE0F, 0x200D].filter (fun c => !(c == 0xFE0F))) ['-'] ∧
    to_code_point [0x200D, 0xFE0F] ['-'] = joinSep ['-'] (tcpLoop 0 [0x200D, 0xFE0F]) :=
  ⟨(C5_strip_condition [0x1F441, 0xFE0F, 0x200D] ['-']).1 (Or.inr (by decide)),
   (C5_strip_condition [0x200D, 0xFE0F] ['-']).2 ⟨by decide, by decide⟩⟩

theorem tcpLoop_append :
    ∀ (xs : List Nat) (p : Nat) (ys : List Nat),
      tcpLoop p (xs ++ ys) = tcpLoop p xs ++ tcpLoop (tcpFinal p xs) ys := by
  intro xs
  induction xs with
  | nil => intro p ys; rfl
  | cons c xs ih =>
    intro p ys
    by_cases hp : p ≠ 0
    · simp only [List.cons_append, tcpLoop, tcpFinal, if_pos hp, List.append_eq, ih]
    · by_cases hl : isLeadSurrogate c
      · simp only [List.cons_append, tcpLoop, tcpFinal, if_neg hp, if_pos hl,
          List.append_eq, ih]
      · simp only [List.cons_append, tcpLoop, tcpFinal, if_neg hp, if_neg hl,
          List.append_eq, ih]

/-- C6 counterexample: the input `[U+D800, "a"]` has an unpaired lead
surrogate (the following character `0x61` is not a trail surrogate),
yet the lead is not dropped: it is combined with `0x61` by the pair
formula into the bogus scalar `0x2461`, instead of the claimed output
`"61"`. -/
theorem C6_counterexample :
    to_code_point [0xD800, 0x61] ['-'] = "2461".data ∧
    to_code_point [0xD800, 0x61] ['-'] ≠ "61".data := by
  refine ⟨by decide, by decide⟩

/-- C6 (amended): an unpaired lead surrogate contributes nothing only
when no character follows it before the scan ends (the pending lead is
discarded at the end of the text); a lead surrogate followed by any
character at all is combined with that character by the surrogate-pair
formula, even when the follower is not a trail surrogate. -/
theorem C6_unpaired_lead (s : List Nat) (l c : Nat) (rest : List Nat) (j : Str)
    (hl : isLeadSurrogate l)
    (h200d : (0x200D : Nat) ∉ s) (hfe0f : (0xFE0F : Nat) ∉ s)
    (hpend : tcpFinal 0 s = 0) :
    to_code_point (s ++ [l]) j = to_code_point s j ∧
    tcpLoop 0 (l :: c :: rest) =
      pyHexInt (0x10000 + ((l : Int) - 0xD800) * 1024 + ((c : Int) - 0xDC00)) ::
        tcpLoop 0 rest := by
  obtain ⟨hl1, hl2⟩ := hl
  constructor
  · have hlne200d : l ≠ 0x200D := by omega
    have hlnefe0f : l ≠ 0xFE0F := by omega
    have hcontains : ∀ (t : List Nat), (0x200D : Nat) ∉ t → t.contains 0x200D = false := by
      intro t ht
      rw [show t.contains 0x200D = List.elem 0x200D t from rfl, List.elem_eq_mem]
      exact decide_eq_false ht
    have h200dApp : (0x200D : Nat) ∉ s ++ [l] := by
      intro hmem
      rcases List.mem_append.mp hmem with hmem | hmem
      · exact h200d hmem
      · simp only [List.mem_singleton] at hmem
        omega
    have hfiltS : s.filter (fun c => !(c == 0xFE0F)) = s := by
      rw [List.filter_eq_self]
      intro a ha
      simp only [Bool.not_eq_eq_eq_not, Bool.not_true, beq_eq_false_iff_ne]
      intro hEq
      exact hfe0f (hEq ▸ ha)
    have hfiltApp : (s ++ [l]).filter (fun c => !(c == 0xFE0F)) = s ++ [l] := by
      rw [List.filter_append, hfiltS]
      have : ([l] : List Nat).filter (fun c => !(c == 0xFE0F)) = [l] := by
        rw [List.filter_eq_self]
        intro a ha
        simp only [List.mem_singleton] at ha
        subst ha
        simp only [Bool.not_eq_eq_eq_not, Bool.not_true, beq_eq_false_iff_ne]
        omega
      rw [this]
    have hLHS : to_code_point (s ++ [l]) j = joinSep j (tcpLoop 0 (s ++ [l])) := by
      unfold to_code_point
      rw [if_pos (by rw [hcontains _ h200dApp]; rfl), hfiltApp]
    have hRHS : to_code_point s j = joinSep j (tcpLoop 0 s) := by
      unfold to_code_point
      rw [if_pos (by rw [hcontains _ h200d]; rfl), hfiltS]
    rw [hLHS, hRHS, tcpLoop_append, hpend]
    have hloop : tcpLoop 0 [l] = [] := by
      unfold tcpLoop
      rw [if_neg (by omega), if_pos ⟨hl1, hl2⟩]
      rfl
    rw [hloop, List.append_nil]
  · simp only [tcpLoop]
    rw [if_neg (show ¬((0 : Nat) ≠ 0) by omega),
      if_pos (show isLeadSurrogate l from ⟨hl1, hl2⟩),
      if_pos (show l ≠ 0 by omega)]

theorem C6_unpaired_lead_witness :
    to_code_point ([0x61] ++ [0xD800]) ['-'] = to_code_point [0x61] ['-'] ∧
    tcpLoop 0 (0xD800 :: 0x61 :: []) =
      pyHexInt (0x10000 + ((0xD800 : Int) - 0xD800) * 1024 + ((0x61 : Int) - 0xDC00)) ::
        tcpLoop 0 [] :=
  C6_unpaired_lead [0x61] 0xD800 0x61 [] ['-'] (by constructor <;> omega)
    (by decide) (by decide) (by decide)

end EmojiCore
